import Mathlib

/-!
Verification of the REPET audio background/foreground separation code
(`repet.py`) against its specification.  The Python source is shallowly
embedded: NumPy float arrays become functions into `ℝ` (or lists over a
linear order where the code only compares and selects values), complex
FFT arrays become functions into `ℂ`, Python integers become `ℕ`/`ℤ`,
and fallible code returns `Option`.  Python's `round` (banker's
rounding), its slice semantics (negative indices count from the end,
bounds are clamped) and NumPy's `argmax` / `argsort` conventions are
embedded explicitly below.
-/

namespace Repet

/-- Python's built-in `round` on a real number: round half to even
(banker's rounding), as used by `steplength`.  Mathlib's `round` rounds
half up, so the half-integer case is handled separately. -/
noncomputable def pyround (x : ℝ) : ℤ :=
  if Int.fract x = 1 / 2 then (if Even ⌊x⌋ then ⌊x⌋ else ⌊x⌋ + 1) else round x

/-- Window length in samples: `2**int(np.ceil(np.log2(0.04*sample_rate)))`
(`repet.py` line 62).  For exponents `>= 0` Python returns an integer
power of two; the value is modelled in `ℝ` so that small sample rates
(negative exponents, a float in Python) are also represented. -/
noncomputable def windowlength (sample_rate : ℝ) : ℝ :=
  (2 : ℝ) ^ ⌈Real.logb 2 (0.04 * sample_rate)⌉

/-- Step length: `round(window_length/2)` (`repet.py` line 68). -/
noncomputable def steplength (window_length : ℝ) : ℤ :=
  pyround (window_length / 2)

/-- Periodic Hamming window `scipy.signal.hamming(window_length, False)`
(`repet.py` line 65): `w[n] = 0.54 - 0.46*cos(2*pi*n/window_length)`. -/
noncomputable def windowfunction (window_length : ℕ) (n : ℕ) : ℝ :=
  0.54 - 0.46 * Real.cos (2 * Real.pi * n / window_length)

/-- Python slice `xs[a:b]`: negative indices count from the end of the
list, then both bounds are clamped to `[0, length]` and the elements
with (normalised) positions `a <= i < b` are kept. -/
def pyslice {α : Type} (xs : List α) (a b : ℤ) : List α :=
  let n : ℤ := xs.length
  let norm : ℤ → ℕ := fun i => (min (max (if i < 0 then i + n else i) 0) n).toNat
  (xs.take (norm b)).drop (norm a)

/-- First index of the maximum of a list (`np.argmax`: ties resolve to
the first occurrence), `none` on the empty list (where NumPy raises
`ValueError`). -/
def argmaxIdx {α : Type} [LinearOrder α] : List α → Option ℕ
  | [] => none
  | x :: xs =>
    match argmaxIdx xs with
    | none => some 0
    | some i => if x < xs.getD i x then some (i + 1) else some 0

/-- Stable insertion of an (index, value) pair into a list sorted by
ascending value; used to model `np.argsort`. -/
def argsortInsert {α : Type} [LinearOrder α] (p : ℕ × α) :
    List (ℕ × α) → List (ℕ × α)
  | [] => [p]
  | q :: rest => if p.2 < q.2 then p :: q :: rest else q :: argsortInsert p rest

/-- `np.argsort` in ascending order (stable on ties), returning the list
of positions. -/
def argsortAsc {α : Type} [LinearOrder α] (l : List α) : List ℕ :=
  (l.enum.foldl (fun acc p => argsortInsert p acc) []).map Prod.fst

/-- `_localmaxima(data_vector, minimum_value, minimum_distance,
number_values)` (`repet.py` lines 361-395), with Python's slice
semantics kept exactly: the left neighbourhood is
`data[max(i-d,0):i-1]` (so position `i-1` itself is never compared, and
for `i = 0` the `-1` wraps around to `len-1`), the right neighbourhood
is `data[i+1:min(i+d,len)]`.  The returned values are the *unsorted*
first `number_values` collected values, while the returned indices are
permuted by the descending argsort, exactly as in the source. -/
def _localmaxima {α : Type} [LinearOrder α] [Inhabited α] (data : List α)
    (minimum_value : α) (minimum_distance : ℕ) (number_values : ℕ) :
    List α × List ℕ :=
  let n := data.length
  let keep := (List.range n).filter (fun i =>
    decide (minimum_value ≤ data.getD i default) &&
    (pyslice data ((i - minimum_distance : ℕ) : ℤ) ((i : ℤ) - 1)).all
      (fun y => decide (y < data.getD i default)) &&
    (pyslice data ((i : ℤ) + 1) (min ((i : ℤ) + minimum_distance) (n : ℤ))).all
      (fun y => decide (y < data.getD i default)))
  let maximum_values := keep.map (fun i => data.getD i default)
  let sort_indices := (argsortAsc maximum_values).reverse
  let nv := min number_values maximum_values.length
  (maximum_values.take nv, (sort_indices.take nv).map (fun p => keep.getD p 0))

/-- `_indices(similarity_matrix, ...)` (`repet.py` lines 398-417):
the per-column local-maxima indices. -/
def _indices {α : Type} [LinearOrder α] [Inhabited α]
    (similarity_columns : List (List α)) (similarity_threshold : α)
    (similarity_distance : ℕ) (similarity_number : ℕ) : List (List ℕ) :=
  similarity_columns.map (fun col =>
    (_localmaxima col similarity_threshold similarity_distance similarity_number).2)

/-- `_periods(beat_spectra, period_range)` for a 1-D beat spectrum
(`repet.py` lines 343-358):
`np.argmax(bs[pr0+1 : min(pr1, floor(len/3))]) + pr0 + 1`, `none` when
the slice is empty (NumPy raises on an empty `argmax`). -/
def _periods {α : Type} [LinearOrder α] (beat_spectra : List α)
    (pr0 pr1 : ℤ) : Option ℤ :=
  (argmaxIdx (pyslice beat_spectra (pr0 + 1)
      (min pr1 ((beat_spectra.length / 3 : ℕ) : ℤ)))).map
    (fun i => (i : ℤ) + pr0 + 1)

/-- The repeating-period selection as wired in `original` (`repet.py`
lines 152-157): the caller-supplied lag range `[pmin, pmax]` has its
lower bound decremented by one (`period_range2[0] = period_range2[0]-1`)
before `_periods` is called. -/
def repeatingPeriod {α : Type} [LinearOrder α] (beat_spectrum : List α)
    (pmin pmax : ℤ) : Option ℤ :=
  _periods beat_spectrum (pmin - 1) pmax

/-- Complex exponential `exp(2*pi*I*a/M)`, the `M`-th root of unity used
by `np.fft.fft` and `np.fft.ifft`. -/
noncomputable def cexp2pi (M : ℕ) (a : ℤ) : ℂ :=
  Complex.exp (2 * Real.pi * Complex.I * a / M)

/-- `np.fft.fft` of a length-`M` sequence:
`X[k] = sum_n x[n] * exp(-2*pi*I*k*n/M)` (no normalisation). -/
noncomputable def fft (M : ℕ) (x : ℕ → ℂ) (k : ℕ) : ℂ :=
  ∑ n ∈ Finset.range M, x n * cexp2pi M (-(k * n))

/-- `np.fft.ifft` of a length-`M` sequence:
`x[n] = (1/M) * sum_k X[k] * exp(2*pi*I*k*n/M)`. -/
noncomputable def ifft (M : ℕ) (X : ℕ → ℂ) (n : ℕ) : ℂ :=
  (∑ k ∈ Finset.range M, X k * cexp2pi M (k * n)) / M

/-- The `np.pad` step of `_stft` (`repet.py` lines 210-211): the signal
is padded with `window_length - step_length` zeros at the front and with
`number_times*step_length - number_samples` zeros at the back. -/
def stftPad (x : ℕ → ℝ) (number_samples window_length step_length : ℕ)
    (i : ℕ) : ℝ :=
  if i < window_length - step_length then 0
  else if i - (window_length - step_length) < number_samples then
    x (i - (window_length - step_length))
  else 0

/-- Number of time frames
`int(np.ceil((window_length-step_length+number_samples)/step_length))`
(`repet.py` lines 135 and 207), written with natural-number ceiling
division. -/
def numberTimes (window_length step_length number_samples : ℕ) : ℕ :=
  (window_length - step_length + number_samples + step_length - 1) / step_length

/-- `_stft(audio_signal, window_function, step_length)` (`repet.py`
lines 199-226): frame `t` windows the padded signal at offset
`step_length*t` and is sent through the DFT. -/
noncomputable def _stft (x : ℕ → ℝ) (number_samples : ℕ) (w : ℕ → ℝ)
    (window_length step_length : ℕ) (k t : ℕ) : ℂ :=
  fft window_length
    (fun j => ((stftPad x number_samples window_length step_length
      (step_length * t + j) * w j : ℝ) : ℂ)) k

/-- `sum(window_function[0:window_length:step_length])`, the
constant-overlap-add normaliser of `_istft` (`repet.py` line 256); for a
positive step length the strided slice selects exactly the indices
divisible by the step length. -/
noncomputable def colaSum (w : ℕ → ℝ) (window_length step_length : ℕ) : ℝ :=
  ∑ j ∈ Finset.range window_length, if j % step_length = 0 then w j else 0

/-- `_istft(audio_stft, window_function, step_length)` (`repet.py` lines
229-258): per-frame inverse DFT, real part, overlap-add of the frames at
`step_length` offsets, removal of the front padding
(`window_length - step_length` samples) and division by the
overlap-added window. -/
noncomputable def _istft (S : ℕ → ℕ → ℂ) (w : ℕ → ℝ)
    (window_length step_length number_times : ℕ) (m : ℕ) : ℝ :=
  (∑ t ∈ Finset.range number_times,
    if step_length * t ≤ m + (window_length - step_length) ∧
        m + (window_length - step_length) < step_length * t + window_length then
      (ifft window_length (fun k => S k t)
        (m + (window_length - step_length) - step_length * t)).re
    else 0) / colaSum w window_length step_length

/-- `_acorr(data_matrix)` for one column (`repet.py` lines 261-280):
zero-pad the length-`N` series to `2N`, squared magnitude of the DFT,
inverse DFT, real part, and unbiased normalisation of lag `k` by
`N - k` (the `np.arange(N, 0, -1)` divisor). -/
noncomputable def _acorr (xs : ℕ → ℝ) (number_points : ℕ) (k : ℕ) : ℝ :=
  (ifft (2 * number_points)
    (fun j => ((Complex.abs (fft (2 * number_points)
      (fun t => ((if t < number_points then xs t else 0 : ℝ) : ℂ)) j)) ^ 2
        : ℝ)) k).re / ((number_points - k : ℕ) : ℝ)

/-- `_beatspectrum(audio_spectrogram)` (`repet.py` lines 283-292): the
per-bin autocorrelation of the `number_times`-long rows, averaged over
the `number_frequencies` bins. -/
noncomputable def _beatspectrum (audio_spectrogram : ℕ → ℕ → ℝ)
    (number_frequencies number_times : ℕ) (k : ℕ) : ℝ :=
  (∑ f ∈ Finset.range number_frequencies,
    _acorr (fun t => audio_spectrogram f t) number_times k) /
    (number_frequencies : ℝ)

/-- Euclidean norm of column `t`, i.e.
`np.sqrt(sum(np.power(data_matrix, 2), 0))` (`repet.py` line 322). -/
noncomputable def colNorm (X : ℕ → ℕ → ℝ) (number_frequencies t : ℕ) : ℝ :=
  Real.sqrt (∑ f ∈ Finset.range number_frequencies, X f t ^ 2)

/-- `_selfsimilaritymatrix(data_matrix)` (`repet.py` lines 318-327):
normalise every column and multiply the normalised set with itself,
`S[i,j] = sum_f (X[f,i]/|X[:,i]|) * (X[f,j]/|X[:,j]|)`. -/
noncomputable def _selfsimilaritymatrix (X : ℕ → ℕ → ℝ)
    (number_frequencies : ℕ) (i j : ℕ) : ℝ :=
  ∑ f ∈ Finset.range number_frequencies,
    X f i / colNorm X number_frequencies i * (X f j / colNorm X number_frequencies j)

/-- `np.median` of a list: sort ascending, middle element for odd
length, average of the two middle elements for even length. -/
noncomputable def medianList (l : List ℝ) : ℝ :=
  let s := l.mergeSort (fun a b => decide (a ≤ b))
  let n := s.length
  if n = 0 then 0
  else if n % 2 = 1 then s.getD (n / 2) 0
  else (s.getD (n / 2 - 1) 0 + s.getD (n / 2) 0) / 2

/-- Modelled from the spec: the values that frame `j` of bin `f` is
compared against when the magnitude spectrogram is cut into
`repeating_period`-length segments — the `_mask` helper itself is absent
from `repet.py` (its call in `original`, line 169, is commented out), so
this and the following two definitions follow the wording of the Mask
Builder section of the specification. -/
noncomputable def segmentValues (V : ℕ → ℕ → ℝ)
    (number_times repeating_period : ℕ) (f j : ℕ) : List ℝ :=
  (List.range ((number_times + repeating_period - 1) / repeating_period)).filterMap
    (fun s => if s * repeating_period + j % repeating_period < number_times then
      some (V f (s * repeating_period + j % repeating_period)) else none)

/-- Modelled from the spec: the repeating-background model is the
per-bin median across the repeating segments, and the mask is the
elementwise minimum of the model and the observed spectrogram, divided
by the observed spectrogram with a small floor `eps` guarding the
denominator. -/
noncomputable def _mask (V : ℕ → ℕ → ℝ) (number_times repeating_period : ℕ)
    (eps : ℝ) (f j : ℕ) : ℝ :=
  min (medianList (segmentValues V number_times repeating_period f j)) (V f j) /
    max (V f j) eps

/-- Modelled from the spec: the dual high-pass constraint — mask values
at frequency bins below the cutoff are forced to 1 for the background
signal. -/
noncomputable def maskHighpass (V : ℕ → ℕ → ℝ)
    (number_times repeating_period : ℕ) (eps : ℝ) (cutoff : ℕ) (f j : ℕ) : ℝ :=
  if f < cutoff then 1 else _mask V number_times repeating_period eps f j

/-- `original(audio_signal, sample_rate)` (`repet.py` lines 96-171).
The pipeline computes the window parameters, the per-channel STFT, the
magnitude spectrogram, and the beat spectrum of the channel-averaged
squared spectrogram.  It then evaluates
`period_range2 = round(period_range*sample_rate/step_length)`
(line 153): `period_range` is a NumPy array and Python's built-in
`round` has no meaning for NumPy arrays (`TypeError`), so no call
returns; this is modelled by `none`.  (For sample rates that make the
step length zero the earlier frame-count computation, line 135,
already fails on `int(inf)`.)  The initialised background,
`np.zeros((number_samples, number_channels))`, is never reached. -/
noncomputable def original (audio_signal : ℕ → ℕ → ℝ)
    (number_samples number_channels : ℕ) (sample_rate : ℕ) :
    Option (ℕ → ℕ → ℝ) :=
  let window_length := ⌊windowlength (sample_rate : ℝ)⌋₊
  let window_function := windowfunction window_length
  let step_length := (steplength (windowlength (sample_rate : ℝ))).toNat
  if step_length = 0 then none
  else
    let number_times := numberTimes window_length step_length number_samples
    let audio_stft := fun c k t =>
      _stft (fun i => audio_signal i c) number_samples window_function
        window_length step_length k t
    let audio_spectrogram := fun c f t => Complex.abs (audio_stft c f t)
    let mean_spectrogram := fun f t =>
      ((∑ c ∈ Finset.range number_channels, audio_spectrogram c f t) /
        (number_channels : ℝ)) ^ 2
    let beat_spectrum := (List.range number_times).map
      (fun k => _beatspectrum mean_spectrogram (window_length / 2 + 1)
        number_times k)
    none

/-- A concrete beat spectrum of 30 lags used as a test vector: value 1
at lag 1, the maximum 5 at lag 4, zero everywhere else. -/
def beatSpectrumProbe : List ℤ := [0, 1, 0, 0, 5] ++ List.replicate 25 0

lemma cexp2pi_add (M : ℕ) (a b : ℤ) :
    cexp2pi M (a + b) = cexp2pi M a * cexp2pi M b := by
  unfold cexp2pi
  rw [← Complex.exp_add]
  congr 1
  push_cast
  ring

lemma cexp2pi_pow (M : ℕ) (a : ℤ) (j : ℕ) :
    cexp2pi M a ^ j = cexp2pi M (a * j) := by
  unfold cexp2pi
  rw [← Complex.exp_nat_mul]
  congr 1
  push_cast
  ring

lemma cexp2pi_dvd (M : ℕ) (hM : 0 < M) (d : ℤ) (h : (M : ℤ) ∣ d) :
    cexp2pi M d = 1 := by
  obtain ⟨c, rfl⟩ := h
  unfold cexp2pi
  have hM0 : (M : ℂ) ≠ 0 := by
    exact_mod_cast Nat.cast_ne_zero.mpr hM.ne'
  rw [show (2 * (Real.pi : ℂ) * Complex.I * (((M : ℤ) * c : ℤ) : ℂ) / (M : ℂ))
      = ((c : ℤ) : ℂ) * (2 * (Real.pi : ℂ) * Complex.I) from by
    field_simp
    ring]
  exact Complex.exp_int_mul_two_pi_mul_I c

lemma cexp2pi_ne_one (M : ℕ) (hM : 0 < M) (d : ℤ) (h : ¬ (M : ℤ) ∣ d) :
    cexp2pi M d ≠ 1 := by
  intro he
  rw [cexp2pi, Complex.exp_eq_one_iff] at he
  obtain ⟨n, hn⟩ := he
  apply h
  have hM0 : (M : ℂ) ≠ 0 := by
    exact_mod_cast Nat.cast_ne_zero.mpr hM.ne'
  have hpi : (Real.pi : ℂ) ≠ 0 := by exact_mod_cast Real.pi_ne_zero
  have h2 : (2 * (Real.pi : ℂ) * Complex.I) ≠ 0 := by
    simp [hpi, Complex.I_ne_zero]
  field_simp at hn
  have h4 : 2 * (Real.pi : ℂ) * Complex.I * (d : ℂ)
      = 2 * (Real.pi : ℂ) * Complex.I * ((n : ℂ) * (M : ℂ)) := by
    linear_combination hn
  have hd : (d : ℂ) = (n : ℂ) * (M : ℂ) := mul_left_cancel₀ h2 h4
  have hd2 : d = n * M := by exact_mod_cast hd
  exact ⟨n, by rw [hd2, mul_comm]⟩

lemma sum_cexp2pi (M : ℕ) (hM : 0 < M) (d : ℤ) :
    ∑ j ∈ Finset.range M, cexp2pi M (d * j) = if (M : ℤ) ∣ d then (M : ℂ) else 0 := by
  have hc : ∀ j ∈ Finset.range M, cexp2pi M (d * j) = cexp2pi M d ^ j :=
    fun j _ => (cexp2pi_pow M d j).symm
  rw [Finset.sum_congr rfl hc]
  by_cases h : (M : ℤ) ∣ d
  · rw [if_pos h]
    simp [cexp2pi_dvd M hM d h]
  · rw [if_neg h, geom_sum_eq (cexp2pi_ne_one M hM d h)]
    have hpM : cexp2pi M d ^ M = 1 := by
      rw [cexp2pi_pow]
      exact cexp2pi_dvd M hM (d * M) ⟨d, mul_comm _ _⟩
    rw [hpM]
    simp

lemma ifft_fft (M : ℕ) (hM : 0 < M) (x : ℕ → ℂ) (n : ℕ) (hn : n < M) :
    ifft M (fft M x) n = x n := by
  unfold ifft fft
  have key : ∀ k ∈ Finset.range M,
      (∑ m ∈ Finset.range M, x m * cexp2pi M (-(k * m))) * cexp2pi M (k * n)
      = ∑ m ∈ Finset.range M, x m * cexp2pi M (((n : ℤ) - m) * k) := by
    intro k _
    rw [Finset.sum_mul]
    refine Finset.sum_congr rfl fun m _ => ?_
    rw [mul_assoc, ← cexp2pi_add]
    congr 2
    ring
  rw [Finset.sum_congr rfl key, Finset.sum_comm]
  have key2 : ∀ m ∈ Finset.range M,
      ∑ k ∈ Finset.range M, x m * cexp2pi M (((n : ℤ) - m) * k)
      = x m * (if (M : ℤ) ∣ ((n : ℤ) - m) then (M : ℂ) else 0) := by
    intro m _
    rw [← Finset.mul_sum, sum_cexp2pi M hM]
  rw [Finset.sum_congr rfl key2]
  have hM0 : (M : ℂ) ≠ 0 := by
    exact_mod_cast Nat.cast_ne_zero.mpr hM.ne'
  rw [Finset.sum_eq_single n]
  · rw [if_pos (by simp)]
    field_simp
  · intro m hm hne
    have hmM : m < M := Finset.mem_range.mp hm
    rw [if_neg, mul_zero]
    rintro ⟨c, hc⟩
    rcases lt_trichotomy c 0 with h0 | h0 | h0
    · have : (M : ℤ) * c ≤ -M := by
        have : c ≤ -1 := by omega
        nlinarith [Int.ofNat_pos.mpr hM]
      omega
    · subst h0
      simp at hc
      exact hne (by omega)
    · have : (M : ℤ) ≤ M * c := by
        have : 1 ≤ c := by omega
        nlinarith [Int.ofNat_pos.mpr hM]
      omega
  · intro habs
    exact absurd (Finset.mem_range.mpr hn) habs

lemma cexp2pi_conj (M : ℕ) (a : ℤ) :
    (starRingEnd ℂ) (cexp2pi M a) = cexp2pi M (-a) := by
  unfold cexp2pi
  rw [← Complex.exp_conj]
  congr 1
  simp [map_div₀, map_mul, map_ofNat, Complex.conj_I, Complex.conj_ofReal,
    map_intCast, map_natCast]

lemma conj_fft_real (M : ℕ) (y : ℕ → ℝ) (j : ℕ) :
    (starRingEnd ℂ) (fft M (fun t => (y t : ℂ)) j)
    = ∑ m ∈ Finset.range M, (y m : ℂ) * cexp2pi M (j * m) := by
  unfold fft
  rw [map_sum]
  refine Finset.sum_congr rfl fun m _ => ?_
  rw [map_mul, Complex.conj_ofReal, cexp2pi_conj, neg_neg]

lemma int_eq_of_dvd_sub_small (M a b : ℤ) (hM : 0 < M) (ha : 0 ≤ a)
    (ha2 : a < M) (hb : 0 ≤ b) (hb2 : b < M) (h : M ∣ a - b) : a = b := by
  obtain ⟨c, hc⟩ := h
  rcases lt_trichotomy c 0 with h0 | h0 | h0
  · have hle : M * c ≤ -M := by nlinarith
    omega
  · subst h0
    simp at hc
    omega
  · have hge : M ≤ M * c := by nlinarith
    omega

lemma dvd_mod_shift (M n k : ℕ) (hM : 0 < M) (hk : k ≤ n + M) :
    (M : ℤ) ∣ ((k : ℤ) + ((n + M - k) % M : ℕ) - n) := by
  have hacast : ((n + M - k : ℕ) : ℤ) = (n : ℤ) + M - k := by
    rw [Nat.cast_sub hk]
    push_cast
    ring
  have hmod : (((n + M - k) % M : ℕ) : ℤ) = ((n : ℤ) + M - k) % M := by
    rw [Int.natCast_mod, hacast]
  rw [hmod, Int.emod_def]
  refine ⟨1 - ((n : ℤ) + M - k) / M, ?_⟩
  ring_nf

lemma ifft_psd (M : ℕ) (hM : 0 < M) (y : ℕ → ℝ) (k : ℕ) (hk : k < M) :
    ifft M (fun j => fft M (fun t => (y t : ℂ)) j *
      (starRingEnd ℂ) (fft M (fun t => (y t : ℂ)) j)) k
    = ((∑ n ∈ Finset.range M, y n * y ((n + M - k) % M) : ℝ) : ℂ) := by
  have hM0 : (M : ℂ) ≠ 0 := by
    exact_mod_cast Nat.cast_ne_zero.mpr hM.ne'
  unfold ifft
  have expand : ∀ j ∈ Finset.range M,
      (fft M (fun t => (y t : ℂ)) j *
        (starRingEnd ℂ) (fft M (fun t => (y t : ℂ)) j)) * cexp2pi M (j * k)
      = ∑ n ∈ Finset.range M, ∑ m ∈ Finset.range M,
          (y n : ℂ) * y m * cexp2pi M (((k : ℤ) + m - n) * j) := by
    intro j _
    rw [conj_fft_real]
    unfold fft
    rw [Finset.sum_mul_sum, Finset.sum_mul]
    refine Finset.sum_congr rfl fun n _ => ?_
    rw [Finset.sum_mul]
    refine Finset.sum_congr rfl fun m _ => ?_
    rw [show (y n : ℂ) * cexp2pi M (-(j * n)) * ((y m : ℂ) * cexp2pi M (j * m))
          * cexp2pi M (j * k)
        = (y n : ℂ) * y m *
          (cexp2pi M (-(j * n)) * cexp2pi M (j * m) * cexp2pi M (j * k)) from by ring,
      ← cexp2pi_add, ← cexp2pi_add]
    congr 2
    ring
  rw [Finset.sum_congr rfl expand, Finset.sum_comm]
  have swap2 : ∀ n ∈ Finset.range M,
      ∑ j ∈ Finset.range M, ∑ m ∈ Finset.range M,
        (y n : ℂ) * y m * cexp2pi M (((k : ℤ) + m - n) * j)
      = ∑ m ∈ Finset.range M, (y n : ℂ) * y m *
          (if (M : ℤ) ∣ ((k : ℤ) + m - n) then (M : ℂ) else 0) := by
    intro n _
    rw [Finset.sum_comm]
    refine Finset.sum_congr rfl fun m _ => ?_
    rw [← Finset.mul_sum, sum_cexp2pi M hM]
  rw [Finset.sum_congr rfl swap2]
  have collapse : ∀ n ∈ Finset.range M,
      ∑ m ∈ Finset.range M, (y n : ℂ) * y m *
        (if (M : ℤ) ∣ ((k : ℤ) + m - n) then (M : ℂ) else 0)
      = (y n : ℂ) * y ((n + M - k) % M) * M := by
    intro n hn
    have hnM : n < M := Finset.mem_range.mp hn
    have hm0 : (n + M - k) % M < M := Nat.mod_lt _ hM
    have hdvd0 : (M : ℤ) ∣ ((k : ℤ) + ((n + M - k) % M : ℕ) - n) :=
      dvd_mod_shift M n k hM (by omega)
    rw [Finset.sum_eq_single ((n + M - k) % M)]
    · rw [if_pos hdvd0]
    · intro m hm hne
      rw [if_neg, mul_zero]
      intro hdvd
      have hmM : m < M := Finset.mem_range.mp hm
      have hdiff : (M : ℤ) ∣ ((m : ℤ) - ((n + M - k) % M : ℕ)) := by
        have := dvd_sub hdvd hdvd0
        convert this using 1
        ring
      have := int_eq_of_dvd_sub_small M m ((n + M - k) % M : ℕ)
        (by exact_mod_cast hM) (by positivity) (by exact_mod_cast hmM)
        (by positivity) (by exact_mod_cast hm0) hdiff
      exact hne (by exact_mod_cast this)
    · intro habs
      exact absurd (Finset.mem_range.mpr hm0) habs
  rw [Finset.sum_congr rfl collapse]
  rw [show ∑ n ∈ Finset.range M, (y n : ℂ) * y ((n + M - k) % M) * M
      = (∑ n ∈ Finset.range M, (y n : ℂ) * y ((n + M - k) % M)) * M from
    (Finset.sum_mul _ _ _).symm]
  rw [mul_div_assoc, div_self hM0, mul_one]
  push_cast
  rfl

lemma pyslice_natCast {α : Type} (xs : List α) (a b : ℕ) (ha : a ≤ xs.length)
    (hb : b ≤ xs.length) :
    pyslice xs (a : ℤ) (b : ℤ) = (xs.take b).drop a := by
  simp only [pyslice]
  have hna : (min (max (if (a : ℤ) < 0 then (a : ℤ) + xs.length else a) 0)
      (xs.length : ℤ)).toNat = a := by
    rw [if_neg (by omega)]
    omega
  have hnb : (min (max (if (b : ℤ) < 0 then (b : ℤ) + xs.length else b) 0)
      (xs.length : ℤ)).toNat = b := by
    rw [if_neg (by omega)]
    omega
  rw [hna, hnb]

lemma pyslice_length {α : Type} (xs : List α) (a b : ℕ) (ha : a ≤ b)
    (hb : b ≤ xs.length) :
    (pyslice xs (a : ℤ) (b : ℤ)).length = b - a := by
  rw [pyslice_natCast xs a b (le_trans ha hb) hb, List.length_drop,
    List.length_take]
  omega

lemma pyslice_getD {α : Type} (xs : List α) (a b i : ℕ) (d : α) (hi : i < b - a)
    (hb : b ≤ xs.length) :
    (pyslice xs (a : ℤ) (b : ℤ)).getD i d = xs.getD (a + i) d := by
  have hab : a ≤ b := by omega
  rw [pyslice_natCast xs a b (le_trans hab hb) hb]
  have hilen : i < ((xs.take b).drop a).length := by
    rw [List.length_drop, List.length_take]
    omega
  have hai : a + i < xs.length := by omega
  rw [List.getD_eq_getElem _ _ hilen, List.getD_eq_getElem _ _ hai,
    List.getElem_drop, List.getElem_take]

lemma argmaxIdx_cons {α : Type} [LinearOrder α] (x : α) (xs : List α) :
    argmaxIdx (x :: xs) = match argmaxIdx xs with
      | none => some 0
      | some i => if x < xs.getD i x then some (i + 1) else some 0 := rfl

lemma argmaxIdx_eq_none_iff {α : Type} [LinearOrder α] (l : List α) :
    argmaxIdx l = none ↔ l = [] := by
  cases l with
  | nil => simp [argmaxIdx]
  | cons x xs =>
    rw [argmaxIdx_cons]
    constructor
    · intro h
      rcases hr : argmaxIdx xs with _ | i <;> rw [hr] at h
      · cases h
      · dsimp only at h
        split_ifs at h
    · intro h
      cases h

lemma argmaxIdx_spec {α : Type} [LinearOrder α] (d : α) :
    ∀ (l : List α) (i : ℕ), argmaxIdx l = some i →
      i < l.length ∧ (∀ j < l.length, l.getD j d ≤ l.getD i d) ∧
      (∀ j < l.length, l.getD j d = l.getD i d → i ≤ j)
  | [], i => by
    intro h
    cases h
  | x :: xs, i => by
    intro h
    rw [argmaxIdx_cons] at h
    rcases hr : argmaxIdx xs with _ | i' <;> rw [hr] at h
    · have hxs : xs = [] := (argmaxIdx_eq_none_iff xs).mp hr
      subst hxs
      cases h
      refine ⟨by simp, ?_, ?_⟩
      · intro j hj
        simp only [List.length_cons, List.length_nil] at hj
        interval_cases j
        exact le_refl _
      · intro j hj _
        omega
    · obtain ⟨hi', hmax, hties⟩ := argmaxIdx_spec d xs i' hr
      have hv : xs.getD i' x = xs.getD i' d := by
        rw [List.getD_eq_getElem _ _ hi', List.getD_eq_getElem _ _ hi']
      dsimp only at h
      split_ifs at h with hx
      · cases h
        rw [hv] at hx
        refine ⟨by simpa using hi', ?_, ?_⟩
        · intro j hj
          cases j with
          | zero => exact hx.le
          | succ j' => exact hmax j' (by simpa using hj)
        · intro j hj heq
          cases j with
          | zero => exact absurd heq (ne_of_lt hx)
          | succ j' => exact Nat.succ_le_succ (hties j' (by simpa using hj) heq)
      · cases h
        rw [hv] at hx
        push_neg at hx
        refine ⟨by simp, ?_, ?_⟩
        · intro j hj
          cases j with
          | zero => exact le_refl _
          | succ j' => exact le_trans (hmax j' (by simpa using hj)) hx
        · intro j hj _
          omega

/-- C4: the repeating period selected by `_periods` (with the lower-bound
decrement applied by `original`) is NOT always the lag of the maximum
value within the inclusive caller range `[pmin, pmax]` capped at one
third of the beat-spectrum length: the upper bound is exclusive.  On
`beatSpectrumProbe` with range `[1, 4]` the code returns lag 1 although
lag 4 lies within `[1, 4]`, within the one-third cap (`30/3 = 10`), and
carries a strictly larger value. -/
theorem periods_boundary_counterexample :
    repeatingPeriod beatSpectrumProbe 1 4 = some 1 ∧
    (1 : ℕ) ≤ 4 ∧ (4 : ℕ) ≤ 4 ∧ 4 ≤ beatSpectrumProbe.length / 3 ∧
    beatSpectrumProbe.getD 1 0 < beatSpectrumProbe.getD 4 0 := by
  decide

/-- C4 (amended): for every beat spectrum and caller-supplied lag range
`[pmin, pmax]` with `1 <= pmin`, the selected repeating period is the lag
of the maximum value over the half-open window
`pmin <= k < min pmax (length/3)` — both the caller's upper bound and
the one-third cap are exclusive — and ties resolve to the lowest lag. -/
theorem periods_amended {α : Type} [LinearOrder α] (d : α) (bs : List α)
    (pmin pmax : ℕ) (h1 : 1 ≤ pmin) (hne : pmin < min pmax (bs.length / 3)) :
    ∃ k : ℕ, repeatingPeriod bs (pmin : ℤ) (pmax : ℤ) = some (k : ℤ) ∧
      pmin ≤ k ∧ k < min pmax (bs.length / 3) ∧
      ∀ j, pmin ≤ j → j < min pmax (bs.length / 3) →
        bs.getD j d ≤ bs.getD k d ∧ (bs.getD j d = bs.getD k d → k ≤ j) := by
  set B := min pmax (bs.length / 3) with hB
  have hBlen : B ≤ bs.length := by
    have h3 : bs.length / 3 ≤ bs.length := Nat.div_le_self _ _
    omega
  have hslice : pyslice bs ((pmin : ℤ) - 1 + 1)
      (min (pmax : ℤ) ((bs.length / 3 : ℕ) : ℤ)) = pyslice bs (pmin : ℤ) (B : ℤ) := by
    congr 1
    · ring
    · rw [hB]
      exact (Nat.cast_min _ _).symm
  have hlen : (pyslice bs (pmin : ℤ) (B : ℤ)).length = B - pmin :=
    pyslice_length bs pmin B (le_of_lt hne) hBlen
  have hnonnil : pyslice bs (pmin : ℤ) (B : ℤ) ≠ [] := by
    intro hnil
    rw [hnil] at hlen
    simp at hlen
    omega
  obtain ⟨i, hi⟩ : ∃ i, argmaxIdx (pyslice bs (pmin : ℤ) (B : ℤ)) = some i := by
    cases hopt : argmaxIdx (pyslice bs (pmin : ℤ) (B : ℤ)) with
    | none => exact absurd ((argmaxIdx_eq_none_iff _).mp hopt) hnonnil
    | some i => exact ⟨i, rfl⟩
  obtain ⟨hilen, hmax, hties⟩ := argmaxIdx_spec d _ i hi
  rw [hlen] at hilen hmax hties
  have hgk := pyslice_getD bs pmin B i d hilen hBlen
  refine ⟨pmin + i, ?_, by omega, by omega, ?_⟩
  · unfold repeatingPeriod _periods
    rw [hslice, hi]
    exact congrArg some (by push_cast; ring)
  · intro j hj1 hj2
    have hjidx : j - pmin < B - pmin := by omega
    have hgj := pyslice_getD bs pmin B (j - pmin) d hjidx hBlen
    rw [show pmin + (j - pmin) = j from by omega] at hgj
    constructor
    · have hle := hmax (j - pmin) hjidx
      rwa [hgj, hgk] at hle
    · intro heq
      have hle := hties (j - pmin) hjidx (by rw [hgj, hgk]; exact heq)
      omega

/-- Witness for C4 (amended) on a flat 12-lag beat spectrum with caller
range `[1, 10]`. -/
theorem periods_amended_witness : ∃ k : ℕ,
    repeatingPeriod (List.replicate 12 (0 : ℤ)) ((1 : ℕ) : ℤ) ((10 : ℕ) : ℤ)
      = some (k : ℤ) ∧ 1 ≤ k ∧
      k < min 10 ((List.replicate 12 (0 : ℤ)).length / 3) ∧
      ∀ j, 1 ≤ j → j < min 10 ((List.replicate 12 (0 : ℤ)).length / 3) →
        (List.replicate 12 (0 : ℤ)).getD j 0 ≤ (List.replicate 12 (0 : ℤ)).getD k 0 ∧
        ((List.replicate 12 (0 : ℤ)).getD j 0 = (List.replicate 12 (0 : ℤ)).getD k 0 →
          k ≤ j) :=
  periods_amended 0 (List.replicate 12 (0 : ℤ)) 1 10 (by norm_num) (by decide)

lemma circcorr_sum (xs : ℕ → ℝ) (N k : ℕ) (hk : k < N) :
    ∑ n ∈ Finset.range (2 * N),
      (if n < N then xs n else 0) *
        (if (n + 2 * N - k) % (2 * N) < N then xs ((n + 2 * N - k) % (2 * N)) else 0)
    = ∑ t ∈ Finset.range (N - k), xs t * xs (t + k) := by
  have hsub : Finset.range N ⊆ Finset.range (2 * N) :=
    Finset.range_subset.mpr (by omega)
  rw [← Finset.sum_subset hsub (by
    intro n hn hnot
    rw [if_neg (by simpa using hnot), zero_mul])]
  have hcongr : ∀ n ∈ Finset.range N,
      (if n < N then xs n else 0) *
        (if (n + 2 * N - k) % (2 * N) < N then xs ((n + 2 * N - k) % (2 * N)) else 0)
      = if k ≤ n then xs n * xs (n - k) else 0 := by
    intro n hn
    have hnN : n < N := Finset.mem_range.mp hn
    rw [if_pos hnN]
    by_cases hkn : k ≤ n
    · have hmod : (n + 2 * N - k) % (2 * N) = n - k := by
        have h1 : n + 2 * N - k = (n - k) + 2 * N := by omega
        rw [h1, Nat.add_mod_right, Nat.mod_eq_of_lt (by omega)]
      rw [hmod, if_pos (by omega), if_pos hkn]
    · have hmod : (n + 2 * N - k) % (2 * N) = n + 2 * N - k :=
        Nat.mod_eq_of_lt (by omega)
      rw [hmod, if_neg (by omega), if_neg hkn, mul_zero]
  rw [Finset.sum_congr rfl hcongr, ← Finset.sum_filter,
    show Finset.filter (fun n => k ≤ n) (Finset.range N) = Finset.Ico k N from by
      ext n
      simp [Finset.mem_filter, Finset.mem_range, Finset.mem_Ico, and_comm],
    Finset.sum_Ico_eq_sum_range]
  refine Finset.sum_congr rfl fun t _ => ?_
  rw [show k + t - k = t from by omega, mul_comm, show k + t = t + k from by omega]

lemma acorr_sample (xs : ℕ → ℝ) (N k : ℕ) (hk : k < N) :
    _acorr xs N k
    = (∑ t ∈ Finset.range (N - k), xs t * xs (t + k)) / ((N - k : ℕ) : ℝ) := by
  have hM : 0 < 2 * N := by omega
  unfold _acorr
  have harg : (fun j => (((Complex.abs (fft (2 * N)
        (fun t => ((if t < N then xs t else 0 : ℝ) : ℂ)) j)) ^ 2 : ℝ) : ℂ))
      = fun j => fft (2 * N) (fun t => ((if t < N then xs t else 0 : ℝ) : ℂ)) j *
          (starRingEnd ℂ) (fft (2 * N)
            (fun t => ((if t < N then xs t else 0 : ℝ) : ℂ)) j) := by
    funext j
    rw [Complex.sq_abs]
    exact (Complex.mul_conj _).symm
  rw [harg, ifft_psd (2 * N) hM (fun t => if t < N then xs t else 0) k (by omega),
    Complex.ofReal_re, circcorr_sum xs N k hk]

lemma colaSum_half_overlap (w : ℕ → ℝ) (step : ℕ) (hstep : 0 < step) :
    colaSum w (2 * step) step = w 0 + w step := by
  unfold colaSum
  rw [← Finset.sum_filter]
  have hset : Finset.filter (fun j => j % step = 0) (Finset.range (2 * step))
      = {0, step} := by
    ext j
    simp only [Finset.mem_filter, Finset.mem_range, Finset.mem_insert,
      Finset.mem_singleton]
    constructor
    · rintro ⟨hj, hmod⟩
      obtain ⟨c, rfl⟩ := Nat.dvd_of_mod_eq_zero hmod
      have hc : c < 2 := by
        by_contra hc2
        push_neg at hc2
        have : step * 2 ≤ step * c := Nat.mul_le_mul_left step hc2
        omega
      interval_cases c
      · left
        simp
      · right
        simp
    · rintro (rfl | rfl)
      · exact ⟨by omega, Nat.zero_mod _⟩
      · exact ⟨by omega, Nat.mod_self _⟩
  rw [hset, Finset.sum_pair (by omega : (0 : ℕ) ≠ step)]

lemma coverFilter (step nt n : ℕ) (hstep : 0 < step) (hn1 : step ≤ n)
    (hn2 : n < nt * step) :
    Finset.filter
      (fun t => step * t ≤ n ∧ n < step * t + 2 * step) (Finset.range nt)
    = {n / step - 1, n / step} := by
  have hq := Nat.div_add_mod n step
  have hr : n % step < step := Nat.mod_lt _ hstep
  have hq1 : 1 ≤ n / step := (Nat.one_le_div_iff hstep).mpr hn1
  have hqnt : n / step < nt := (Nat.div_lt_iff_lt_mul hstep).mpr hn2
  ext t
  simp only [Finset.mem_filter, Finset.mem_range, Finset.mem_insert,
    Finset.mem_singleton]
  constructor
  · rintro ⟨ht, hle, hlt⟩
    have h1 : t ≤ n / step :=
      (Nat.le_div_iff_mul_le hstep).mpr (by rw [mul_comm]; exact hle)
    have h2 : n / step < t + 2 :=
      (Nat.div_lt_iff_lt_mul hstep).mpr (by rw [add_mul, mul_comm]; omega)
    omega
  · have hmulq : step * (n / step) ≤ n := by omega
    have hsucc : n / step - 1 + 1 = n / step := Nat.succ_pred_eq_of_pos hq1
    have hmul1 : step * (n / step - 1) + step = step * (n / step) := by
      calc step * (n / step - 1) + step = step * (n / step - 1 + 1) := by ring
        _ = step * (n / step) := by rw [hsucc]
    rintro (rfl | rfl)
    · refine ⟨by omega, by omega, by omega⟩
    · refine ⟨hqnt, hmulq, by omega⟩

lemma windowfunction_cola (step : ℕ) (hstep : 0 < step) :
    (∀ r < step, windowfunction (2 * step) r + windowfunction (2 * step) (r + step)
      = windowfunction (2 * step) 0 + windowfunction (2 * step) step) ∧
    windowfunction (2 * step) 0 + windowfunction (2 * step) step ≠ 0 := by
  have hs : ((step : ℝ)) ≠ 0 := Nat.cast_ne_zero.mpr hstep.ne'
  have harg : ∀ r : ℕ, 2 * Real.pi * ((r + step : ℕ) : ℝ) / ((2 * step : ℕ) : ℝ)
      = Real.pi * r / step + Real.pi := by
    intro r
    push_cast
    field_simp
    ring
  have harg2 : ∀ r : ℕ, 2 * Real.pi * (r : ℝ) / ((2 * step : ℕ) : ℝ)
      = Real.pi * r / step := by
    intro r
    push_cast
    field_simp
    ring
  have hsum : ∀ r : ℕ, windowfunction (2 * step) r + windowfunction (2 * step) (r + step)
      = 1.08 := by
    intro r
    unfold windowfunction
    rw [harg r, harg2 r, Real.cos_add_pi]
    ring
  have hval : windowfunction (2 * step) 0 + windowfunction (2 * step) step = 1.08 := by
    have h := hsum 0
    rwa [show (0 : ℕ) + step = step from by omega] at h
  constructor
  · intro r _
    rw [hsum r, hval]
  · rw [hval]
    norm_num

/-- C1: for every 1-D real signal and every (window, step) pair
satisfying the constant-overlap-add condition — even window length
`2*step`, step exactly half of it, and a window whose overlapped sums
are the constant `w 0 + w step /= 0` (as the periodic Hamming window
is) — applying `_stft` and then `_istft` with no modification
reproduces the first `number_samples` entries of the signal exactly. -/
theorem stft_istft_inverse (x : ℕ → ℝ) (w : ℕ → ℝ) (number_samples step : ℕ)
    (hstep : 0 < step)
    (hcola : ∀ r < step, w r + w (r + step) = w 0 + w step)
    (hne : w 0 + w step ≠ 0) :
    ∀ m < number_samples,
      _istft (_stft x number_samples w (2 * step) step) w (2 * step) step
        (numberTimes (2 * step) step number_samples) m = x m := by
  intro m hm
  have hL : 2 * step - step = step := by omega
  set nt := numberTimes (2 * step) step number_samples with hnt
  have hntw : nt = (number_samples + 2 * step - 1) / step := by
    rw [hnt]
    unfold numberTimes
    congr 1
    omega
  have hntstep : number_samples + step ≤ nt * step := by
    rw [hntw]
    have h2 : number_samples + 2 * step - 1
        < ((number_samples + 2 * step - 1) / step + 1) * step :=
      (Nat.div_lt_iff_lt_mul hstep).mp (Nat.lt_succ_self _)
    rw [add_mul, one_mul] at h2
    omega
  set n := m + step with hn
  have hn1 : step ≤ n := by omega
  have hn2 : n < nt * step := by omega
  unfold _istft
  rw [hL]
  have hframe : ∀ t ∈ Finset.range nt,
      (if step * t ≤ m + step ∧ m + step < step * t + 2 * step then
        (ifft (2 * step)
          (fun k => _stft x number_samples w (2 * step) step k t)
          (m + step - step * t)).re
      else 0)
      = if step * t ≤ m + step ∧ m + step < step * t + 2 * step then
          stftPad x number_samples (2 * step) step n * w (n - step * t)
        else 0 := by
    intro t ht
    by_cases hcov : step * t ≤ m + step ∧ m + step < step * t + 2 * step
    · rw [if_pos hcov, if_pos hcov]
      have hjlt : m + step - step * t < 2 * step := by omega
      have hifft := ifft_fft (2 * step) (by omega)
        (fun j => ((stftPad x number_samples (2 * step) step
          (step * t + j) * w j : ℝ) : ℂ)) (m + step - step * t) hjlt
      rw [show (fun k => _stft x number_samples w (2 * step) step k t)
          = fft (2 * step) (fun j => ((stftPad x number_samples (2 * step) step
            (step * t + j) * w j : ℝ) : ℂ)) from by
        funext k
        rfl]
      rw [hifft, Complex.ofReal_re]
      rw [show step * t + (m + step - step * t) = n from by omega]
    · rw [if_neg hcov, if_neg hcov]
  have hq := Nat.div_add_mod n step
  have hr : n % step < step := Nat.mod_lt _ hstep
  have hq1 : 1 ≤ n / step := (Nat.one_le_div_iff hstep).mpr hn1
  rw [Finset.sum_congr rfl hframe, ← Finset.sum_filter,
    coverFilter step nt n hstep hn1 hn2,
    Finset.sum_pair (by omega : n / step - 1 ≠ n / step)]
  have hsucc : n / step - 1 + 1 = n / step := Nat.succ_pred_eq_of_pos hq1
  have hmul1 : step * (n / step - 1) + step = step * (n / step) := by
    calc step * (n / step - 1) + step = step * (n / step - 1 + 1) := by ring
      _ = step * (n / step) := by rw [hsucc]
  have hidx1 : n - step * (n / step - 1) = n % step + step := by omega
  have hidx2 : n - step * (n / step) = n % step := by omega
  rw [hidx1, hidx2, colaSum_half_overlap w step hstep]
  have hpad : stftPad x number_samples (2 * step) step n = x m := by
    unfold stftPad
    rw [hL, if_neg (by omega), if_pos (by omega : n - step < number_samples)]
    congr 1
    omega
  rw [hpad, ← mul_add,
    show w (n % step + step) + w (n % step) = w 0 + w step from by
      rw [add_comm]
      exact hcola (n % step) hr,
    mul_div_assoc, div_self hne, mul_one]

lemma natCeilDiv_eq_ceil (a b : ℕ) (hb : 0 < b) :
    (((a + b - 1) / b : ℕ) : ℤ) = ⌈(a : ℚ) / (b : ℚ)⌉ := by
  have hb' : (0 : ℚ) < (b : ℚ) := by positivity
  rw [eq_comm, Int.ceil_eq_iff]
  have h3 := Nat.div_mul_le_self (a + b - 1) b
  have h2 : a + b - 1 < ((a + b - 1) / b + 1) * b :=
    (Nat.div_lt_iff_lt_mul hb).mp (Nat.lt_succ_self _)
  rw [add_mul, one_mul] at h2
  set q := (a + b - 1) / b with hqdef
  have hA : q * b < a + b := by omega
  have hB : a ≤ q * b := by omega
  have hA2 : (q : ℚ) * b < (a : ℚ) + b := by exact_mod_cast hA
  have hB2 : (a : ℚ) ≤ (q : ℚ) * b := by exact_mod_cast hB
  constructor
  · push_cast
    rw [sub_lt_iff_lt_add, show (a : ℚ) / b + 1 = ((a : ℚ) + b) / b from by
      field_simp, lt_div_iff₀ hb']
    exact hA2
  · push_cast
    rw [div_le_iff₀ hb']
    exact hB2

/-- C8: for every 1-D signal and every (window_length, step_length) pair,
the forward transform produces exactly
`ceil((window_length - step_length + number_samples)/step_length)` time
frames, and the signal is zero-padded at both edges — exactly
`window_length - step_length` zeros in front, and enough zeros at the
back — so that every analysis window, in particular the first and the
last, is fully populated inside the padded signal. -/
theorem stft_framecount_padding (x : ℕ → ℝ)
    (number_samples window_length step_length : ℕ)
    (hstep : 0 < step_length) (hws : step_length ≤ window_length) :
    ((numberTimes window_length step_length number_samples : ℤ)
        = ⌈((window_length - step_length + number_samples : ℕ) : ℚ)
            / (step_length : ℚ)⌉) ∧
    (∀ i < window_length - step_length,
      stftPad x number_samples window_length step_length i = 0) ∧
    (∀ i, window_length - step_length + number_samples ≤ i →
      stftPad x number_samples window_length step_length i = 0) ∧
    (∀ m < number_samples,
      stftPad x number_samples window_length step_length
        (m + (window_length - step_length)) = x m) ∧
    (∀ t < numberTimes window_length step_length number_samples,
      t * step_length + window_length
        ≤ (window_length - step_length) + number_samples
          + (numberTimes window_length step_length number_samples * step_length
            - number_samples)) := by
  set A := window_length - step_length + number_samples with hA
  have hnt : numberTimes window_length step_length number_samples
      = (A + step_length - 1) / step_length := rfl
  have h2 : A + step_length - 1 < ((A + step_length - 1) / step_length + 1) * step_length :=
    (Nat.div_lt_iff_lt_mul hstep).mp (Nat.lt_succ_self _)
  rw [add_mul, one_mul] at h2
  have hlow : A ≤ (A + step_length - 1) / step_length * step_length := by omega
  refine ⟨?_, ?_, ?_, ?_, ?_⟩
  · rw [hnt]
    exact natCeilDiv_eq_ceil A step_length hstep
  · intro i hi
    rw [stftPad, if_pos hi]
  · intro i hi
    rw [stftPad, if_neg (by omega), if_neg (by omega)]
  · intro m hm
    rw [stftPad, if_neg (by omega), if_pos (by omega : m + (window_length - step_length) - (window_length - step_length) < number_samples)]
    congr 1
    omega
  · intro t ht
    rw [hnt] at ht ⊢
    set q := (A + step_length - 1) / step_length with hq
    have ht2 : t + 1 ≤ q := ht
    have hmul : (t + 1) * step_length ≤ q * step_length :=
      Nat.mul_le_mul_right step_length ht2
    rw [add_mul, one_mul] at hmul
    omega

lemma selfsim_diag (X : ℕ → ℕ → ℝ) (F i : ℕ)
    (h : 0 < ∑ f ∈ Finset.range F, X f i ^ 2) :
    _selfsimilaritymatrix X F i i = 1 := by
  unfold _selfsimilaritymatrix colNorm
  have hsq : Real.sqrt (∑ f ∈ Finset.range F, X f i ^ 2)
      * Real.sqrt (∑ f ∈ Finset.range F, X f i ^ 2)
      = ∑ f ∈ Finset.range F, X f i ^ 2 :=
    Real.mul_self_sqrt h.le
  have hcongr : ∀ f ∈ Finset.range F,
      X f i / Real.sqrt (∑ g ∈ Finset.range F, X g i ^ 2)
        * (X f i / Real.sqrt (∑ g ∈ Finset.range F, X g i ^ 2))
      = X f i ^ 2 / (∑ g ∈ Finset.range F, X g i ^ 2) := by
    intro f _
    rw [div_mul_div_comm, hsq, ← pow_two]
  rw [Finset.sum_congr rfl hcongr, ← Finset.sum_div, div_self h.ne']

/-- C6 (amended): provided every column of the frame set has nonzero
energy, the self-similarity matrix is symmetric, has every entry in
`[-1, 1]`, and has diagonal entries exactly 1.  (For an all-zero column
the diagonal entry is not 1; see the counterexample.) -/
theorem selfsimilarity_props (X : ℕ → ℕ → ℝ) (F T : ℕ)
    (h : ∀ t < T, 0 < ∑ f ∈ Finset.range F, X f t ^ 2) :
    ∀ i < T, ∀ j < T,
      _selfsimilaritymatrix X F i j = _selfsimilaritymatrix X F j i ∧
      |_selfsimilaritymatrix X F i j| ≤ 1 ∧
      _selfsimilaritymatrix X F i i = 1 := by
  intro i hi j hj
  refine ⟨?_, ?_, selfsim_diag X F i (h i hi)⟩
  · unfold _selfsimilaritymatrix
    exact Finset.sum_congr rfl fun f _ => mul_comm _ _
  · rw [← sq_le_one_iff_abs_le_one]
    have hcs := Finset.sum_mul_sq_le_sq_mul_sq (Finset.range F)
      (fun f => X f i / colNorm X F i) (fun f => X f j / colNorm X F j)
    have hdi : ∑ f ∈ Finset.range F, (X f i / colNorm X F i) ^ 2 = 1 := by
      have hd := selfsim_diag X F i (h i hi)
      unfold _selfsimilaritymatrix at hd
      rw [← hd]
      exact Finset.sum_congr rfl fun f _ => pow_two _
    have hdj : ∑ f ∈ Finset.range F, (X f j / colNorm X F j) ^ 2 = 1 := by
      have hd := selfsim_diag X F j (h j hj)
      unfold _selfsimilaritymatrix at hd
      rw [← hd]
      exact Finset.sum_congr rfl fun f _ => pow_two _
    rw [hdi, hdj, mul_one] at hcs
    unfold _selfsimilaritymatrix
    exact hcs

lemma getD_nonneg (s : List ℝ) (h : ∀ a ∈ s, 0 ≤ a) (i : ℕ) : 0 ≤ s.getD i 0 := by
  rcases lt_or_ge i s.length with hlt | hge
  · rw [List.getD_eq_getElem _ _ hlt]
    exact h _ (List.getElem_mem hlt)
  · rw [List.getD_eq_default _ _ hge]

lemma medianList_nonneg (l : List ℝ) (h : ∀ a ∈ l, 0 ≤ a) : 0 ≤ medianList l := by
  simp only [medianList]
  have hmem : ∀ a ∈ l.mergeSort (fun a b => decide (a ≤ b)), 0 ≤ a := by
    intro a ha
    exact h a ((List.mergeSort_perm l _).mem_iff.mp ha)
  split_ifs
  · exact le_refl 0
  · exact getD_nonneg _ hmem _
  · have h1 := getD_nonneg _ hmem ((l.mergeSort (fun a b => decide (a ≤ b))).length / 2 - 1)
    have h2 := getD_nonneg _ hmem ((l.mergeSort (fun a b => decide (a ≤ b))).length / 2)
    linarith

lemma segmentValues_nonneg (V : ℕ → ℕ → ℝ) (T p f j : ℕ)
    (hV : ∀ f j, 0 ≤ V f j) : ∀ a ∈ segmentValues V T p f j, 0 ≤ a := by
  intro a ha
  unfold segmentValues at ha
  rw [List.mem_filterMap] at ha
  obtain ⟨s, _, hs⟩ := ha
  split_ifs at hs
  · cases hs
    exact hV _ _

/-- C5: every entry of the repeating mask (modelled from the
specification, including the dual high-pass constraint) lies in
`[0, 1]`, and the background obtained by applying the mask plus the
foreground computed as (input minus background) reconstructs the input
exactly. -/
theorem mask_bounded_reconstruct (V : ℕ → ℕ → ℝ)
    (number_times repeating_period cutoff : ℕ) (eps : ℝ) (heps : 0 < eps)
    (hV : ∀ f j, 0 ≤ V f j) :
    (∀ f j, 0 ≤ maskHighpass V number_times repeating_period eps cutoff f j ∧
      maskHighpass V number_times repeating_period eps cutoff f j ≤ 1) ∧
    (∀ f j, maskHighpass V number_times repeating_period eps cutoff f j * V f j
      + (V f j - maskHighpass V number_times repeating_period eps cutoff f j * V f j)
      = V f j) := by
  constructor
  · intro f j
    unfold maskHighpass
    split_ifs with hf
    · norm_num
    · unfold _mask
      have hden : 0 < max (V f j) eps := lt_max_of_lt_right heps
      have hmodel : 0 ≤ medianList (segmentValues V number_times repeating_period f j) :=
        medianList_nonneg _ (segmentValues_nonneg V number_times repeating_period f j hV)
      constructor
      · exact div_nonneg (le_min hmodel (hV f j)) hden.le
      · rw [div_le_one hden]
        exact le_trans (min_le_right _ _) (le_max_left _ _)
  · intro f j
    ring

lemma pyround_intCast (n : ℤ) : pyround ((n : ℤ) : ℝ) = n := by
  unfold pyround
  rw [Int.fract_intCast, if_neg (by norm_num), round_intCast]

lemma ceil_logb_08 : ⌈Real.logb 2 (0.8 : ℝ)⌉ = 0 := by
  rw [Int.ceil_eq_zero_iff, Set.mem_Ioc]
  constructor
  · have h1 : Real.logb 2 ((2 : ℝ)⁻¹) < Real.logb 2 0.8 :=
      Real.logb_lt_logb (by norm_num) (by norm_num) (by norm_num)
    have h2 : Real.logb 2 ((2 : ℝ)⁻¹) = -1 := by
      rw [Real.logb_inv, Real.logb_self_eq_one (by norm_num)]
    linarith
  · exact Real.logb_nonpos (by norm_num) (by norm_num) (by norm_num)

lemma windowlength_20 : windowlength 20 = 1 := by
  unfold windowlength
  rw [show (0.04 * (20 : ℝ)) = 0.8 from by norm_num, ceil_logb_08, zpow_zero]

lemma fract_half : Int.fract ((1 : ℝ) / 2) = 1 / 2 := by
  rw [Int.fract_eq_self]
  constructor <;> norm_num

/-- C10 (counterexample): at sample rate 20 the window length is
`2^0 = 1` and the step length `round(1/2)` is 0 under Python's banker's
rounding — not half the window length. -/
theorem windowlength_small_rate_counterexample :
    steplength (windowlength 20) = 0 ∧
    ((steplength (windowlength 20) : ℝ) ≠ windowlength 20 / 2) := by
  have hstep : steplength (windowlength 20) = 0 := by
    rw [windowlength_20]
    unfold steplength pyround
    rw [if_pos fract_half]
    rw [show ⌊(1 : ℝ) / 2⌋ = 0 from by
      rw [Int.floor_eq_zero_iff]
      constructor <;> norm_num]
    rw [if_pos even_zero]
  refine ⟨hstep, ?_⟩
  rw [hstep, windowlength_20]
  norm_num

/-- C10 (amended): for every sample rate above 25 Hz the derived window
length is `2^ceil(log2(0.04*sample_rate))`, an integer power of two with
positive exponent, and the derived step length is exactly half the
window length.  (At sample rates of 25 Hz and below the window length
degenerates to 1 and the rounded step length is 0, not half the window;
see the counterexample.) -/
theorem windowlength_steplength_amended (sr : ℝ) (hsr : 25 < sr) :
    windowlength sr = 2 ^ ⌈Real.logb 2 (0.04 * sr)⌉ ∧
    (∃ k : ℕ, 1 ≤ k ∧ windowlength sr = 2 ^ k) ∧
    (steplength (windowlength sr) : ℝ) = windowlength sr / 2 := by
  have hx : (1 : ℝ) < 0.04 * sr := by nlinarith
  have hpos : 0 < ⌈Real.logb 2 (0.04 * sr)⌉ :=
    Int.ceil_pos.mpr (Real.logb_pos (by norm_num) hx)
  obtain ⟨k, hke, hk1⟩ : ∃ k : ℕ, (k : ℤ) = ⌈Real.logb 2 (0.04 * sr)⌉ ∧ 1 ≤ k :=
    ⟨(⌈Real.logb 2 (0.04 * sr)⌉).toNat, Int.toNat_of_nonneg hpos.le, by omega⟩
  have hwl : windowlength sr = 2 ^ k := by
    unfold windowlength
    rw [← hke, zpow_natCast]
  refine ⟨rfl, ⟨k, hk1, hwl⟩, ?_⟩
  rw [hwl]
  obtain ⟨q, rfl⟩ : ∃ q, k = q + 1 := ⟨k - 1, by omega⟩
  have hhalf : (2 : ℝ) ^ (q + 1) / 2 = 2 ^ q := by
    rw [pow_succ]
    ring
  unfold steplength
  rw [hhalf, show ((2 : ℝ)) ^ q = (((2 ^ q : ℤ) : ℤ) : ℝ) from by push_cast; ring,
    pyround_intCast]


/-- C6 (counterexample): a frame set consisting of one all-zero column.
The spectral frame has zero Euclidean norm, the normalisation divides by
zero, and the diagonal entry of the self-similarity matrix is 0 (NaN in
NumPy), not 1. -/
theorem selfsimilarity_zero_column_counterexample :
    _selfsimilaritymatrix (fun _ _ => (0 : ℝ)) 1 0 0 ≠ 1 := by
  intro h
  rw [_selfsimilaritymatrix] at h
  simp [colNorm] at h

/-- Witness for C6 (amended) on the single-frame set with value 2. -/
theorem selfsimilarity_props_witness :
    _selfsimilaritymatrix (fun _ _ => (2 : ℝ)) 1 0 0 = 1 :=
  (selfsimilarity_props (fun _ _ => (2 : ℝ)) 1 1
    (by
      intro t _
      rw [Finset.sum_range_one]
      norm_num) 0 (by norm_num) 0 (by norm_num)).2.2

/-- Witness for C8 on a 3-sample signal with window length 4 and step
length 2. -/
theorem stft_framecount_padding_witness :
    ((numberTimes 4 2 3 : ℤ) = ⌈((4 - 2 + 3 : ℕ) : ℚ) / ((2 : ℕ) : ℚ)⌉) :=
  (stft_framecount_padding (fun _ => 0) 3 4 2 (by norm_num) (by norm_num)).1

/-- Witness for C5 on the constant spectrogram 1 with period 2 and
floor 1. -/
theorem mask_bounded_reconstruct_witness :
    0 ≤ maskHighpass (fun _ _ => (1 : ℝ)) 4 2 1 100 0 0 ∧
    maskHighpass (fun _ _ => (1 : ℝ)) 4 2 1 100 0 0 ≤ 1 :=
  (mask_bounded_reconstruct (fun _ _ => (1 : ℝ)) 4 2 100 1 (by norm_num)
    (fun _ _ => by norm_num)).1 0 0

/-- C7: for every per-bin time series of length `number_points`, the
autocorrelation computed by `_acorr` through the zero-padded
power-spectral-density identity equals the unbiased sample
autocorrelation — lag `k` is the lagged product sum divided by
`number_points - k` — and the beat spectrum is the mean of these per-bin
autocorrelations across all frequency bins. -/
theorem acorr_beatspectrum_unbiased (V : ℕ → ℕ → ℝ) (F N k : ℕ) (hk : k < N) :
    (∀ f, _acorr (fun t => V f t) N k
        = (∑ t ∈ Finset.range (N - k), V f t * V f (t + k)) / ((N - k : ℕ) : ℝ)) ∧
    _beatspectrum V F N k
      = (∑ f ∈ Finset.range F,
          (∑ t ∈ Finset.range (N - k), V f t * V f (t + k)) / ((N - k : ℕ) : ℝ))
        / (F : ℝ) := by
  refine ⟨fun f => acorr_sample (fun t => V f t) N k hk, ?_⟩
  unfold _beatspectrum
  congr 1
  exact Finset.sum_congr rfl fun f _ => acorr_sample _ N k hk

/-- Witness for C7 on the constant spectrogram 1 with one bin, two
frames and lag 1. -/
theorem acorr_beatspectrum_unbiased_witness :
    _beatspectrum (fun _ _ => (1 : ℝ)) 1 2 1
      = (∑ f ∈ Finset.range 1,
          (∑ t ∈ Finset.range (2 - 1), (1 : ℝ) * 1) / ((2 - 1 : ℕ) : ℝ))
        / ((1 : ℕ) : ℝ) :=
  (acorr_beatspectrum_unbiased (fun _ _ => (1 : ℝ)) 1 2 1 (by norm_num)).2

/-- Witness for C1: a 3-sample constant signal, periodic Hamming window
of length 2, step length 1. -/
theorem stft_istft_inverse_witness :
    _istft (_stft (fun _ => (5 : ℝ)) 3 (windowfunction 2) 2 1)
      (windowfunction 2) 2 1 (numberTimes 2 1 3) 2 = 5 :=
  stft_istft_inverse (fun _ => (5 : ℝ)) (windowfunction 2) 3 1 (by norm_num)
    (fun r hr => (windowfunction_cola 1 (by norm_num)).1 r hr)
    ((windowfunction_cola 1 (by norm_num)).2) 2 (by norm_num)

/-- C2: `original` never returns the zero background (nor anything
else): every call fails, already for the 1-sample, 1-channel signal at
sample rate 50 — `round(period_range*sample_rate/step_length)` applies
Python's built-in `round` to a NumPy array, which raises `TypeError`
before the zero-initialised background is reached. -/
theorem original_never_returns :
    original (fun _ _ => (1 : ℝ)) 1 1 50 = none := by
  unfold original
  dsimp only
  split
  · rfl
  · rfl

/-- C3: `_localmaxima` violates the local-maxima contract.  On
`[0, 4, 0, 0, 5, 0]` with threshold 0, minimum distance 2 and up to 10
values it returns the values `[4, 5]` — not sorted in descending order —
paired with the indices `[4, 1]` sorted by descending value, so values
and indices do not correspond.  On `[0, 5, 4, 0]` with minimum distance
2 it returns the indices `[1, 2]`, which are only 1 frame apart. -/
theorem localmaxima_failing_inputs :
    _localmaxima ([0, 4, 0, 0, 5, 0] : List ℤ) 0 2 10 = ([4, 5], [4, 1]) ∧
    _localmaxima ([0, 5, 4, 0] : List ℤ) 0 2 100 = ([5, 4], [1, 2]) := by
  decide


/-- Witness for C10 (amended) at sample rate 44100. -/
theorem windowlength_steplength_amended_witness :
    (∃ k : ℕ, 1 ≤ k ∧ windowlength 44100 = 2 ^ k) ∧
    (steplength (windowlength 44100) : ℝ) = windowlength 44100 / 2 :=
  ⟨(windowlength_steplength_amended 44100 (by norm_num)).2.1,
   (windowlength_steplength_amended 44100 (by norm_num)).2.2⟩

end Repet
